import Mathlib

/-!
Verification of the real-time collaboration hub of the Open-same repository
(`backend/internal/websocket/hub.go` and `backend/internal/websocket/client.go`).

The Go code is embedded shallowly and sequentially:

* A Go `*Client` pointer is modelled by a `ClientId` (a `Nat`); the mutable
  fields reached through the pointer (`send` channel contents, whether the
  channel is closed, `currentRoom`) live in a `Conn` record stored in an
  association list `conns : List (ClientId × Conn)` of all live client objects.
* `Hub.clients` (a Go set `map[*Client]bool`) becomes `registry : List ClientId`
  and `Hub.rooms` (`map[string]map[*Client]bool`) becomes
  `rooms : List (String × List ClientId)`; Go maps are duplicate-free, which
  theorems track through explicit `Nodup` hypotheses.  Go map iteration order
  is unspecified; the model fixes the list order.
* A buffered channel send inside `select { case c.send <- m: default: ... }`
  succeeds exactly when the channel is open and has spare capacity; the
  `default` branch performs `close(c.send); delete(h.clients, c)` as in the
  source (`trySend`).  An unconditional `c.send <- m` is modelled by `blockingSend`
  (a plain enqueue; the sequential model never blocks).
* `time.Now()` is passed in as an explicit `now : Nat` timestamp, and the
  opaque `Data map[string]interface{}` payload is an opaque `Option String`.
-/

namespace OpenSame

set_option maxRecDepth 16384

/-- Identity of one `*Client` pointer. -/
abbrev ClientId := Nat

/-- Wire message envelope, from the `Message` struct of `client.go`.
Absent optional fields are the zero values, as with `omitempty` JSON fields. -/
structure Msg where
  type : String := ""
  room_id : String := ""
  user_id : String := ""
  username : String := ""
  content : String := ""
  data : Option String := none
  timestamp : Nat := 0
deriving Repr, DecidableEq

/-- Mutable state of one `Client` object (`client.go`): identity fields,
the buffered `send` channel (its queued messages, its capacity — 256 in
`HandleWebSocket` — and whether it has been closed) and `currentRoom`. -/
structure Conn where
  userID : String := ""
  username : String := ""
  queue : List Msg := []
  cap : Nat := 256
  closed : Bool := false
  currentRoom : String := ""
deriving Repr, DecidableEq

/-- The hub state (`hub.go`): the global client registry `clients`, the room
membership map `rooms`, plus the store of live client objects. -/
structure Hub where
  conns : List (ClientId × Conn) := []
  registry : List ClientId := []
  rooms : List (String × List ClientId) := []
deriving Repr, DecidableEq

/-- Dereference a client pointer: find the `Conn` record for `k`. -/
def lookupConn : List (ClientId × Conn) → ClientId → Option Conn
  | [], _ => none
  | (k', c) :: t, k => if k' = k then some c else lookupConn t k

/-- Write through a client pointer: replace the record stored for `k`. -/
def setConn : List (ClientId × Conn) → ClientId → Conn → List (ClientId × Conn)
  | [], _, _ => []
  | (k', c') :: t, k, c => if k' = k then (k', c) :: t else (k', c') :: setConn t k c

/-- Go map read `h.rooms[roomID]` (`nil` becomes `none`). -/
def lookupRoom : List (String × List ClientId) → String → Option (List ClientId)
  | [], _ => none
  | (r', ms) :: t, r => if r' = r then some ms else lookupRoom t r

/-- Member set of a room, the empty set when the room is absent. -/
def roomMembers (h : Hub) (r : String) : List ClientId :=
  (lookupRoom h.rooms r).getD []

/-- Go map delete on a member set (sets have no duplicates). -/
def removeId : List ClientId → ClientId → List ClientId
  | [], _ => []
  | a :: t, k => if a = k then t else a :: removeId t k

/-- Go set insert `h.rooms[roomID][client] = true`. -/
def addMember (ms : List ClientId) (k : ClientId) : List ClientId :=
  if k ∈ ms then ms else ms ++ [k]

/-- `JoinRoom`'s map mutation: create the room if absent, insert the client. -/
def addToRoom : List (String × List ClientId) → String → ClientId → List (String × List ClientId)
  | [], r, k => [(r, [k])]
  | (r', ms) :: t, r, k =>
      if r' = r then (r', addMember ms k) :: t else (r', ms) :: addToRoom t r k

/-- Go map delete `delete(h.rooms, roomID)`. -/
def removeRoom (rooms : List (String × List ClientId)) (r : String) :
    List (String × List ClientId) :=
  rooms.filter (fun p => p.1 ≠ r)

/-- Replace the member set stored for room `r`. -/
def setRoomMembers : List (String × List ClientId) → String → List ClientId →
    List (String × List ClientId)
  | [], _, _ => []
  | (r', ms') :: t, r, ms =>
      if r' = r then (r', ms) :: setRoomMembers t r ms
      else (r', ms') :: setRoomMembers t r ms

/-- The room-cleanup loop of the `unregister` case of `Hub.Run`: for every
room holding the client, delete the client, and delete the room if it
became empty. -/
def removeFromRooms : List (String × List ClientId) → ClientId → List (String × List ClientId)
  | [], _ => []
  | (r, ms) :: t, k =>
      if k ∈ ms then
        if removeId ms k = [] then removeFromRooms t k
        else (r, removeId ms k) :: removeFromRooms t k
      else (r, ms) :: removeFromRooms t k

/-- The `register` case of `Hub.Run`: `h.clients[client] = true`. -/
def register (h : Hub) (k : ClientId) : Hub :=
  { h with registry := if k ∈ h.registry then h.registry else k :: h.registry }

/-- The `unregister` case of `Hub.Run`: when the client is registered,
delete it from the registry, close its send channel, and remove it from
every room (deleting rooms left empty); otherwise do nothing. -/
def unregister (h : Hub) (k : ClientId) : Hub :=
  if k ∈ h.registry then
    { conns :=
        match lookupConn h.conns k with
        | none => h.conns
        | some c => setConn h.conns k { c with closed := true }
      registry := removeId h.registry k
      rooms := removeFromRooms h.rooms k }
  else h

/-- One `select { case client.send <- m: default: close(client.send);
delete(h.clients, client) }` delivery attempt from `BroadcastToRoom`.
The send succeeds when the channel is open and below capacity; otherwise
the default branch closes the channel and deletes the client from the
registry only.  (Sending on an already-closed channel would panic in Go;
the theorems below only reach the default branch through a full queue.) -/
def trySend (h : Hub) (k : ClientId) (m : Msg) : Hub :=
  match lookupConn h.conns k with
  | none => h
  | some c =>
      if c.closed = false ∧ c.queue.length < c.cap then
        { h with conns := setConn h.conns k { c with queue := c.queue ++ [m] } }
      else
        { h with conns := setConn h.conns k { c with closed := true },
                 registry := removeId h.registry k }

/-- The `for client := range clients` delivery loop of `BroadcastToRoom`. -/
def deliverAll (h : Hub) (ms : List ClientId) (m : Msg) : Hub :=
  ms.foldl (fun acc k => trySend acc k m) h

/-- `Hub.BroadcastToRoom` (the internal `broadcastToRoom` has the same body):
deliver to every current member of the room, if the room exists.  Room
membership is not modified. -/
def broadcastToRoom (h : Hub) (r : String) (m : Msg) : Hub :=
  match lookupRoom h.rooms r with
  | none => h
  | some ms => deliverAll h ms m

/-- The `user_joined` announcement built by `Hub.JoinRoom`. -/
def userJoinedMsg (r : String) (c : Conn) (now : Nat) : Msg :=
  { type := "user_joined", room_id := r, user_id := c.userID,
    username := c.username, timestamp := now }

/-- `Hub.JoinRoom`: create the room if absent, add the client, then
broadcast a `user_joined` announcement to the room's current members
(which now include the joining client). -/
def joinRoom (h : Hub) (k : ClientId) (r : String) (now : Nat) : Hub :=
  match lookupConn h.conns k with
  | none => h
  | some c =>
      broadcastToRoom { h with rooms := addToRoom h.rooms r k } r (userJoinedMsg r c now)

/-- The `user_left` announcement built by `Hub.LeaveRoom`. -/
def userLeftMsg (r : String) (c : Conn) (now : Nat) : Msg :=
  { type := "user_left", room_id := r, user_id := c.userID,
    username := c.username, timestamp := now }

/-- `Hub.LeaveRoom`: if the client is a member of the room, remove it,
broadcast `user_left` to the remaining members, and delete the room if it
became empty. -/
def leaveRoom (h : Hub) (k : ClientId) (r : String) (now : Nat) : Hub :=
  match lookupConn h.conns k with
  | none => h
  | some c =>
      match lookupRoom h.rooms r with
      | none => h
      | some ms =>
          if k ∈ ms then
            let rest := removeId ms k
            let h1 := { h with rooms := setRoomMembers h.rooms r rest }
            let h2 := broadcastToRoom h1 r (userLeftMsg r c now)
            if rest = [] then { h2 with rooms := removeRoom h2.rooms r } else h2
          else h

/-- Apply an update through a client pointer (Go field assignment). -/
def updateConn (h : Hub) (k : ClientId) (f : Conn → Conn) : Hub :=
  match lookupConn h.conns k with
  | none => h
  | some c => { h with conns := setConn h.conns k (f c) }

/-- An unconditional channel send `c.send <- bytes` (never blocks in the
sequential model). -/
def blockingSend (h : Hub) (k : ClientId) (m : Msg) : Hub :=
  updateConn h k (fun c => { c with queue := c.queue ++ [m] })

/-- `Client.handleJoinRoom`: ignore an empty room id; leave the current room
if any; record the new room; `Hub.JoinRoom`; queue a `room_joined`
confirmation to the client itself. -/
def handleJoinRoom (h : Hub) (k : ClientId) (msg : Msg) (now : Nat) : Hub :=
  if msg.room_id = "" then h
  else
    match lookupConn h.conns k with
    | none => h
    | some c =>
        let h1 := if c.currentRoom = "" then h else leaveRoom h k c.currentRoom now
        let h2 := updateConn h1 k (fun c1 => { c1 with currentRoom := msg.room_id })
        let h3 := joinRoom h2 k msg.room_id now
        blockingSend h3 k
          { type := "room_joined", room_id := msg.room_id, user_id := c.userID,
            username := c.username, timestamp := now }

/-- `Client.handleLeaveRoom`: leave the current room if any, clear
`currentRoom`, and always queue a `room_left` confirmation to the client. -/
def handleLeaveRoom (h : Hub) (k : ClientId) (now : Nat) : Hub :=
  match lookupConn h.conns k with
  | none => h
  | some c =>
      let h1 :=
        if c.currentRoom = "" then h
        else updateConn (leaveRoom h k c.currentRoom now) k
          (fun c1 => { c1 with currentRoom := "" })
      blockingSend h1 k
        { type := "room_left", user_id := c.userID, username := c.username,
          timestamp := now }

/-- The relayed `content_change` frame built by `handleContentChange`. -/
def contentChangeMsg (c : Conn) (msg : Msg) (now : Nat) : Msg :=
  { type := "content_change", room_id := c.currentRoom, user_id := c.userID,
    username := c.username, data := msg.data, timestamp := now }

/-- `Client.handleContentChange`: drop the message when not in a room,
otherwise broadcast the relayed frame to the client's current room. -/
def handleContentChange (h : Hub) (k : ClientId) (msg : Msg) (now : Nat) : Hub :=
  match lookupConn h.conns k with
  | none => h
  | some c =>
      if c.currentRoom = "" then h
      else broadcastToRoom h c.currentRoom (contentChangeMsg c msg now)

/-- `Client.handleCursorMove` (same shape as `handleContentChange`). -/
def handleCursorMove (h : Hub) (k : ClientId) (msg : Msg) (now : Nat) : Hub :=
  match lookupConn h.conns k with
  | none => h
  | some c =>
      if c.currentRoom = "" then h
      else broadcastToRoom h c.currentRoom
        { type := "cursor_move", room_id := c.currentRoom, user_id := c.userID,
          username := c.username, data := msg.data, timestamp := now }

/-- `Client.handleSelectionChange` (same shape as `handleContentChange`). -/
def handleSelectionChange (h : Hub) (k : ClientId) (msg : Msg) (now : Nat) : Hub :=
  match lookupConn h.conns k with
  | none => h
  | some c =>
      if c.currentRoom = "" then h
      else broadcastToRoom h c.currentRoom
        { type := "selection_change", room_id := c.currentRoom, user_id := c.userID,
          username := c.username, data := msg.data, timestamp := now }

/-- `Client.handleChatMessage`: like `handleContentChange` but relaying the
`content` text field. -/
def handleChatMessage (h : Hub) (k : ClientId) (msg : Msg) (now : Nat) : Hub :=
  match lookupConn h.conns k with
  | none => h
  | some c =>
      if c.currentRoom = "" then h
      else broadcastToRoom h c.currentRoom
        { type := "chat_message", room_id := c.currentRoom, user_id := c.userID,
          username := c.username, content := msg.content, timestamp := now }

/-- `Client.handlePing`: queue a `pong` reply to the client itself. -/
def handlePing (h : Hub) (k : ClientId) (now : Nat) : Hub :=
  blockingSend h k { type := "pong", timestamp := now }

/-- `Client.handleMessage`: dispatch an inbound frame on its `type` field. -/
def handleMessage (h : Hub) (k : ClientId) (msg : Msg) (now : Nat) : Hub :=
  match msg.type with
  | "join_room" => handleJoinRoom h k msg now
  | "leave_room" => handleLeaveRoom h k now
  | "content_change" => handleContentChange h k msg now
  | "cursor_move" => handleCursorMove h k msg now
  | "selection_change" => handleSelectionChange h k msg now
  | "chat_message" => handleChatMessage h k msg now
  | "ping" => handlePing h k now
  | _ => h

/-- One nanosecond count of Go's `time.Second`. -/
def second : Nat := 1000000000

/-- `writeWait` of `client.go` (nanoseconds). -/
def writeWait : Nat := 10 * second

/-- `pongWait` of `client.go` (nanoseconds). -/
def pongWait : Nat := 60 * second

/-- `pingPeriod` of `client.go` (nanoseconds). -/
def pingPeriod : Nat := (pongWait * 9) / 10

/-- `maxMessageSize` of `client.go` (bytes). -/
def maxMessageSize : Nat := 512


/-- The `room_left` confirmation built by `handleLeaveRoom` (it carries no
room id). -/
def roomLeftMsg (c : Conn) (now : Nat) : Msg :=
  { type := "room_left", user_id := c.userID, username := c.username,
    timestamp := now }

/-- The `room_joined` confirmation built by `handleJoinRoom`. -/
def roomJoinedMsg (r : String) (c : Conn) (now : Nat) : Msg :=
  { type := "room_joined", room_id := r, user_id := c.userID,
    username := c.username, timestamp := now }

/-! ### Predicates and operation wrappers used to state the claims -/

/-- Registry consistency: every member of every room is registered. -/
def Inv (h : Hub) : Prop := ∀ p ∈ h.rooms, ∀ j ∈ p.2, j ∈ h.registry

/-- Every room's member set is duplicate-free (Go maps are). -/
def MemNodup (h : Hub) : Prop := ∀ p ∈ h.rooms, p.2.Nodup

/-- The room keys are duplicate-free (Go maps are). -/
def KeyNodup (h : Hub) : Prop := (h.rooms.map Prod.fst).Nodup

/-- Both well-formedness facts a Go map gives for free. -/
def WfRooms (h : Hub) : Prop := KeyNodup h ∧ MemNodup h

/-- Delivery to `k` would take the non-default `select` branch: the send
channel exists, is open, and has spare capacity. -/
def Deliverable (h : Hub) (k : ClientId) : Prop :=
  ∃ c, lookupConn h.conns k = some c ∧ c.closed = false ∧ c.queue.length < c.cap

/-- Client `k`'s `currentRoom` field agrees with the hub's room map: `k` sits
in exactly the room named by `currentRoom`, and in none when it is empty. -/
def RoomSync (h : Hub) (k : ClientId) (c : Conn) : Prop :=
  ∀ p ∈ h.rooms, (k ∈ p.2 ↔ (c.currentRoom ≠ "" ∧ p.1 = c.currentRoom))

/-- One hub operation, as named by the spec. -/
inductive HubOp where
  | registerOp : ClientId → HubOp
  | unregisterOp : ClientId → HubOp
  | joinOp : ClientId → String → Nat → HubOp
  | leaveOp : ClientId → String → Nat → HubOp
  | broadcastOp : String → Msg → HubOp
deriving Repr, DecidableEq

/-- Run one hub operation. -/
def applyOp (h : Hub) : HubOp → Hub
  | .registerOp k => register h k
  | .unregisterOp k => unregister h k
  | .joinOp k r now => joinRoom h k r now
  | .leaveOp k r now => leaveRoom h k r now
  | .broadcastOp r m => broadcastToRoom h r m

/-- Side conditions under which an operation's internal broadcasts all
succeed, and a joining client is already registered. -/
def opOk (h : Hub) : HubOp → Prop
  | .registerOp _ => True
  | .unregisterOp _ => True
  | .joinOp k r _ => k ∈ h.registry ∧ ∀ j ∈ addMember (roomMembers h r) k, Deliverable h j
  | .leaveOp k r _ => ∀ j ∈ removeId (roomMembers h r) k, Deliverable h j
  | .broadcastOp r _ => ∀ j ∈ roomMembers h r, Deliverable h j

/-- The inbound frame a client sends to join room `r`. -/
def joinMsg (r : String) : Msg := { type := "join_room", room_id := r }

/-- A client sending a sequence of `join_room` messages, each handled by
`handleJoinRoom`. -/
def joinSeq (h : Hub) (k : ClientId) (rs : List String) (now : Nat) : Hub :=
  rs.foldl (fun acc r => handleJoinRoom acc k (joinMsg r) now) h

/-! ### Concrete states used by counterexamples and witnesses -/

/-- A healthy client of room `r`, used by several concrete states. -/
def aliceConn : Conn := { userID := "u1", username := "alice", currentRoom := "r" }

/-- A second healthy client of room `r`. -/
def bobConn : Conn := { userID := "u2", username := "bob", currentRoom := "r" }

/-- A client of room `r` whose send channel is saturated: its reader stopped
draining and all 256 slots of the buffered channel are occupied. -/
def stuckConn : Conn :=
  { userID := "u2", username := "bob", currentRoom := "r",
    queue := List.replicate 256 { type := "pong" } }

/-- Two healthy clients, both registered and both members of room `r`. -/
def hubTwo : Hub :=
  { conns := [(1, aliceConn), (2, bobConn)], registry := [1, 2],
    rooms := [("r", [1, 2])] }

/-- Client 1 healthy, client 2 saturated; both registered members of `r`. -/
def hubStuck : Hub :=
  { conns := [(1, aliceConn), (2, stuckConn)], registry := [1, 2],
    rooms := [("r", [1, 2])] }

/-- Three registered members of `r`; client 2 is saturated. -/
def hubThree : Hub :=
  { conns := [(1, aliceConn), (2, stuckConn),
              (3, { userID := "u3", username := "eve", currentRoom := "r" })],
    registry := [1, 2, 3], rooms := [("r", [1, 2, 3])] }

/-- One registered client that is in no room yet. -/
def hubLone : Hub :=
  { conns := [(3, { userID := "u3", username := "eve" })], registry := [3],
    rooms := [] }

/-- The inbound `content_change` frame of spec scenario 3. -/
def inboundChange : Msg :=
  { type := "content_change", data := some "op insert pos 5 text hi" }

/-- A chat frame used to drive concrete broadcasts. -/
def chatMsgEx : Msg := { type := "chat_message", room_id := "r", content := "hi" }

/-- Client 1 already in room `r`; client 2 registered but roomless. -/
def hubJoin : Hub :=
  { conns := [(1, aliceConn), (2, { userID := "u2", username := "bob" })],
    registry := [1, 2], rooms := [("r", [1])] }

/-! ### Helper lemmas about the map operations -/

theorem mem_of_mem_removeId {l : List ClientId} {k j : ClientId}
    (h : j ∈ removeId l k) : j ∈ l := by
  induction l with
  | nil => simp [removeId] at h
  | cons a t ih =>
      by_cases ha : a = k
      · simp only [removeId, if_pos ha] at h
        exact List.mem_cons_of_mem _ h
      · simp only [removeId, if_neg ha, List.mem_cons] at h
        rcases h with h | h
        · exact h ▸ List.mem_cons_self _ _
        · exact List.mem_cons_of_mem _ (ih h)

theorem mem_removeId_of_ne {l : List ClientId} {k j : ClientId}
    (hne : j ≠ k) (h : j ∈ l) : j ∈ removeId l k := by
  induction l with
  | nil => simp at h
  | cons a t ih =>
      by_cases ha : a = k
      · simp only [removeId, if_pos ha]
        rcases List.mem_cons.mp h with h | h
        · exact absurd (h.trans ha) hne
        · exact h
      · simp only [removeId, if_neg ha, List.mem_cons]
        rcases List.mem_cons.mp h with h | h
        · exact Or.inl h
        · exact Or.inr (ih h)

theorem not_mem_removeId_self {l : List ClientId} {k : ClientId}
    (h : l.Nodup) : k ∉ removeId l k := by
  induction l with
  | nil => simp [removeId]
  | cons a t ih =>
      rcases List.nodup_cons.mp h with ⟨ha, ht⟩
      by_cases hak : a = k
      · simp only [removeId, if_pos hak]
        exact fun hk => ha (hak ▸ hk)
      · simp only [removeId, if_neg hak, List.mem_cons]
        rintro (h | h)
        · exact hak h.symm
        · exact ih ht h

theorem nodup_removeId {l : List ClientId} {k : ClientId}
    (h : l.Nodup) : (removeId l k).Nodup := by
  induction l with
  | nil => simp [removeId]
  | cons a t ih =>
      rcases List.nodup_cons.mp h with ⟨ha, ht⟩
      by_cases hak : a = k
      · simpa [removeId, if_pos hak] using ht
      · simp only [removeId, if_neg hak]
        exact List.nodup_cons.mpr ⟨fun hm => ha (mem_of_mem_removeId hm), ih ht⟩

theorem removeId_of_not_mem {l : List ClientId} {k : ClientId}
    (h : k ∉ l) : removeId l k = l := by
  induction l with
  | nil => rfl
  | cons a t ih =>
      simp only [List.mem_cons, not_or] at h
      obtain ⟨ha, ht⟩ := h
      simp only [removeId, if_neg (fun hak : a = k => ha hak.symm)]
      exact congrArg _ (ih ht)

theorem lookupConn_setConn_self {l : List (ClientId × Conn)} {k : ClientId}
    {c0 : Conn} (c : Conn) (h : lookupConn l k = some c0) :
    lookupConn (setConn l k c) k = some c := by
  induction l with
  | nil => simp [lookupConn] at h
  | cons p t ih =>
      obtain ⟨k', c'⟩ := p
      by_cases hk : k' = k
      · simp [setConn, lookupConn, hk]
      · simp only [lookupConn, if_neg hk] at h
        simp only [setConn, if_neg hk, lookupConn, if_neg hk]
        exact ih h

theorem lookupConn_setConn_ne {l : List (ClientId × Conn)} {k j : ClientId}
    (c : Conn) (hne : j ≠ k) :
    lookupConn (setConn l k c) j = lookupConn l j := by
  induction l with
  | nil => rfl
  | cons p t ih =>
      obtain ⟨k', c'⟩ := p
      by_cases hk : k' = k
      · subst hk
        simp [setConn, lookupConn, if_neg (fun h : k' = j => hne (h ▸ rfl))]
      · simp only [setConn, if_neg hk, lookupConn]
        by_cases hj : k' = j
        · simp [hj]
        · rw [if_neg hj, if_neg hj]
          exact ih

theorem setConn_of_lookup_none {l : List (ClientId × Conn)} {k : ClientId}
    (c : Conn) (h : lookupConn l k = none) : setConn l k c = l := by
  induction l with
  | nil => rfl
  | cons p t ih =>
      obtain ⟨k', c'⟩ := p
      by_cases hk : k' = k
      · simp [lookupConn, hk] at h
      · simp only [lookupConn, if_neg hk] at h
        simp only [setConn, if_neg hk]
        exact congrArg _ (ih h)

theorem setConn_lookup_self {l : List (ClientId × Conn)} {k : ClientId}
    {c : Conn} (h : lookupConn l k = some c) : setConn l k c = l := by
  induction l with
  | nil => rfl
  | cons p t ih =>
      obtain ⟨k', c'⟩ := p
      by_cases hk : k' = k
      · simp only [lookupConn, if_pos hk] at h
        cases Option.some.inj h
        simp [setConn, if_pos hk]
      · simp only [lookupConn, if_neg hk] at h
        simp only [setConn, if_neg hk]
        exact congrArg _ (ih h)

theorem lookupConn_map_setConn {l : List (ClientId × Conn)} {k : ClientId}
    {c0 : Conn} (c : Conn) {α : Type} (f : Conn → α)
    (hl : lookupConn l k = some c0) (hf : f c = f c0) (j : ClientId) :
    (lookupConn (setConn l k c) j).map f = (lookupConn l j).map f := by
  by_cases hj : j = k
  · subst hj
    rw [lookupConn_setConn_self c hl, hl]
    simpa using hf
  · rw [lookupConn_setConn_ne c hj]

/-! ### Framing lemmas for single and repeated delivery -/

theorem trySend_rooms (h : Hub) (k : ClientId) (m : Msg) :
    (trySend h k m).rooms = h.rooms := by
  unfold trySend
  cases lookupConn h.conns k with
  | none => rfl
  | some c =>
      by_cases hok : c.closed = false ∧ c.queue.length < c.cap
      · simp [hok]
      · simp [hok]

theorem trySend_lookup_ne (h : Hub) {k j : ClientId} (m : Msg) (hne : j ≠ k) :
    lookupConn (trySend h k m).conns j = lookupConn h.conns j := by
  unfold trySend
  cases lookupConn h.conns k with
  | none => rfl
  | some c =>
      by_cases hok : c.closed = false ∧ c.queue.length < c.cap
      · simp only [if_pos hok]
        exact lookupConn_setConn_ne _ hne
      · simp only [if_neg hok]
        exact lookupConn_setConn_ne _ hne

theorem trySend_currentRoom (h : Hub) (k : ClientId) (m : Msg) (j : ClientId) :
    (lookupConn (trySend h k m).conns j).map (fun c => c.currentRoom) =
      (lookupConn h.conns j).map (fun c => c.currentRoom) := by
  unfold trySend
  cases hc : lookupConn h.conns k with
  | none => rfl
  | some c =>
      by_cases hok : c.closed = false ∧ c.queue.length < c.cap
      · simp only [if_pos hok]
        exact lookupConn_map_setConn { c with queue := c.queue ++ [m] }
          (fun c => c.currentRoom) hc rfl j
      · simp only [if_neg hok]
        exact lookupConn_map_setConn { c with closed := true }
          (fun c => c.currentRoom) hc rfl j

theorem trySend_ok (h : Hub) (k : ClientId) (m : Msg) (c : Conn)
    (hc : lookupConn h.conns k = some c) (hcl : c.closed = false)
    (hq : c.queue.length < c.cap) :
    trySend h k m =
      { h with conns := setConn h.conns k { c with queue := c.queue ++ [m] } } := by
  simp [trySend, hc, hcl, hq]

theorem trySend_bad (h : Hub) (k : ClientId) (m : Msg) (c : Conn)
    (hc : lookupConn h.conns k = some c)
    (hbad : ¬ (c.closed = false ∧ c.queue.length < c.cap)) :
    trySend h k m =
      { h with conns := setConn h.conns k { c with closed := true },
               registry := removeId h.registry k } := by
  unfold trySend
  rw [hc]
  exact if_neg hbad

theorem updateConn_rooms (h : Hub) (k : ClientId) (f : Conn → Conn) :
    (updateConn h k f).rooms = h.rooms := by
  unfold updateConn
  cases lookupConn h.conns k <;> rfl

theorem updateConn_registry (h : Hub) (k : ClientId) (f : Conn → Conn) :
    (updateConn h k f).registry = h.registry := by
  unfold updateConn
  cases lookupConn h.conns k <;> rfl

theorem updateConn_lookup_self (h : Hub) (k : ClientId) (f : Conn → Conn) (c : Conn)
    (hc : lookupConn h.conns k = some c) :
    lookupConn (updateConn h k f).conns k = some (f c) := by
  unfold updateConn
  rw [hc]
  exact lookupConn_setConn_self _ hc

theorem updateConn_lookup_ne (h : Hub) {k j : ClientId} (f : Conn → Conn)
    (hne : j ≠ k) :
    lookupConn (updateConn h k f).conns j = lookupConn h.conns j := by
  unfold updateConn
  cases lookupConn h.conns k with
  | none => rfl
  | some c => exact lookupConn_setConn_ne _ hne

theorem deliverAll_nil (h : Hub) (m : Msg) : deliverAll h [] m = h := rfl

theorem deliverAll_cons (h : Hub) (a : ClientId) (t : List ClientId) (m : Msg) :
    deliverAll h (a :: t) m = deliverAll (trySend h a m) t m := rfl

theorem deliverAll_rooms (ms : List ClientId) (h : Hub) (m : Msg) :
    (deliverAll h ms m).rooms = h.rooms := by
  induction ms generalizing h with
  | nil => rfl
  | cons a t ih => rw [deliverAll_cons, ih, trySend_rooms]

theorem deliverAll_lookup_not_mem (ms : List ClientId) (h : Hub) (m : Msg)
    {j : ClientId} (hj : j ∉ ms) :
    lookupConn (deliverAll h ms m).conns j = lookupConn h.conns j := by
  induction ms generalizing h with
  | nil => rfl
  | cons a t ih =>
      simp only [List.mem_cons, not_or] at hj
      rw [deliverAll_cons, ih (trySend h a m) hj.2, trySend_lookup_ne _ _ hj.1]

theorem deliverAll_currentRoom (ms : List ClientId) (h : Hub) (m : Msg) (j : ClientId) :
    (lookupConn (deliverAll h ms m).conns j).map (fun c => c.currentRoom) =
      (lookupConn h.conns j).map (fun c => c.currentRoom) := by
  induction ms generalizing h with
  | nil => rfl
  | cons a t ih => rw [deliverAll_cons, ih, trySend_currentRoom]

/-- When every recipient is deliverable, the broadcast loop appends the
message to every recipient's queue, touches no other client, and leaves the
registry and the room map unchanged. -/
theorem deliverAll_ok (ms : List ClientId) (h : Hub) (m : Msg)
    (hnd : ms.Nodup)
    (hok : ∀ k ∈ ms, ∃ c, lookupConn h.conns k = some c ∧ c.closed = false ∧
      c.queue.length < c.cap) :
    (∀ k ∈ ms, ∃ c, lookupConn h.conns k = some c ∧
       lookupConn (deliverAll h ms m).conns k = some { c with queue := c.queue ++ [m] }) ∧
    (∀ j, j ∉ ms → lookupConn (deliverAll h ms m).conns j = lookupConn h.conns j) ∧
    (deliverAll h ms m).registry = h.registry ∧
    (deliverAll h ms m).rooms = h.rooms := by
  induction ms generalizing h with
  | nil => exact ⟨by simp, fun j _ => rfl, rfl, rfl⟩
  | cons a t ih =>
      rcases List.nodup_cons.mp hnd with ⟨hat, hnt⟩
      obtain ⟨c, hc, hcl, hq⟩ := hok a (List.mem_cons_self _ _)
      have hstep := trySend_ok h a m c hc hcl hq
      have hlookA : lookupConn (trySend h a m).conns a =
          some { c with queue := c.queue ++ [m] } := by
        rw [hstep]
        exact lookupConn_setConn_self _ hc
      have hlookNe : ∀ j, j ≠ a →
          lookupConn (trySend h a m).conns j = lookupConn h.conns j :=
        fun j hj => trySend_lookup_ne h m hj
      have hokT : ∀ k ∈ t, ∃ c', lookupConn (trySend h a m).conns k = some c' ∧
          c'.closed = false ∧ c'.queue.length < c'.cap := by
        intro k hk
        obtain ⟨c', hc', hcl', hq'⟩ := hok k (List.mem_cons_of_mem _ hk)
        exact ⟨c', by rw [hlookNe k (fun he => hat (he ▸ hk))]; exact hc', hcl', hq'⟩
      obtain ⟨ihApp, ihFrame, ihReg, ihRooms⟩ := ih (trySend h a m) hnt hokT
      refine ⟨?_, ?_, ?_, ?_⟩
      · intro k hk
        rcases List.mem_cons.mp hk with hk | hk
        · subst hk
          exact ⟨c, hc, by rw [deliverAll_cons, ihFrame k hat, hlookA]⟩
        · obtain ⟨c', hc', hfin⟩ := ihApp k hk
          refine ⟨c', ?_, by rw [deliverAll_cons]; exact hfin⟩
          rw [← hlookNe k (fun he => hat (he ▸ hk))]
          exact hc'
      · intro j hj
        simp only [List.mem_cons, not_or] at hj
        rw [deliverAll_cons, ihFrame j hj.2, hlookNe j hj.1]
      · rw [deliverAll_cons, ihReg, hstep]
      · rw [deliverAll_cons, ihRooms, hstep]

/-- When exactly one recipient `b` is undeliverable (its queue is full) and
the rest are deliverable, the loop closes `b`'s channel and deletes `b` from
the registry — and from the registry only — while every other recipient
still receives the message. -/
theorem deliverAll_one_bad (ms : List ClientId) (h : Hub) (m : Msg)
    (b : ClientId) (cb : Conn)
    (hnd : ms.Nodup) (hb : b ∈ ms)
    (hcb : lookupConn h.conns b = some cb)
    (hbad : ¬ (cb.closed = false ∧ cb.queue.length < cb.cap))
    (hok : ∀ k ∈ ms, k ≠ b → ∃ c, lookupConn h.conns k = some c ∧
      c.closed = false ∧ c.queue.length < c.cap) :
    (∀ k ∈ ms, k ≠ b → ∃ c, lookupConn h.conns k = some c ∧
       lookupConn (deliverAll h ms m).conns k = some { c with queue := c.queue ++ [m] }) ∧
    lookupConn (deliverAll h ms m).conns b = some { cb with closed := true } ∧
    (deliverAll h ms m).registry = removeId h.registry b ∧
    (deliverAll h ms m).rooms = h.rooms := by
  induction ms generalizing h with
  | nil => cases hb
  | cons a t ih =>
      rcases List.nodup_cons.mp hnd with ⟨hat, hnt⟩
      by_cases hab : a = b
      · subst hab
        have hstep := trySend_bad h a m cb hcb hbad
        have hlookB : lookupConn (trySend h a m).conns a =
            some { cb with closed := true } := by
          rw [hstep]
          exact lookupConn_setConn_self _ hcb
        have hlookNe : ∀ j, j ≠ a →
            lookupConn (trySend h a m).conns j = lookupConn h.conns j :=
          fun j hj => trySend_lookup_ne h m hj
        have hokT : ∀ k ∈ t, ∃ c', lookupConn (trySend h a m).conns k = some c' ∧
            c'.closed = false ∧ c'.queue.length < c'.cap := by
          intro k hk
          have hka : k ≠ a := fun he => hat (he ▸ hk)
          obtain ⟨c', hc', hcl', hq'⟩ := hok k (List.mem_cons_of_mem _ hk) hka
          exact ⟨c', by rw [hlookNe k hka]; exact hc', hcl', hq'⟩
        obtain ⟨ihApp, ihFrame, ihReg, ihRooms⟩ := deliverAll_ok t (trySend h a m) m hnt hokT
        refine ⟨?_, ?_, ?_, ?_⟩
        · intro k hk hka
          rcases List.mem_cons.mp hk with hk | hk
          · exact absurd hk hka
          · obtain ⟨c', hc', hfin⟩ := ihApp k hk
            refine ⟨c', ?_, by rw [deliverAll_cons]; exact hfin⟩
            rw [← hlookNe k (fun he => hat (he ▸ hk))]
            exact hc'
        · rw [deliverAll_cons, ihFrame a hat, hlookB]
        · rw [deliverAll_cons, ihReg, hstep]
        · rw [deliverAll_cons, ihRooms, hstep]
      · have hbt : b ∈ t := by
          rcases List.mem_cons.mp hb with hba | hbt
          · exact absurd hba.symm hab
          · exact hbt
        obtain ⟨c, hc, hcl, hq⟩ := hok a (List.mem_cons_self _ _) hab
        have hstep := trySend_ok h a m c hc hcl hq
        have hlookNe : ∀ j, j ≠ a →
            lookupConn (trySend h a m).conns j = lookupConn h.conns j :=
          fun j hj => trySend_lookup_ne h m hj
        have hba : b ≠ a := fun he => hab he.symm
        have hokT : ∀ k ∈ t, k ≠ b → ∃ c', lookupConn (trySend h a m).conns k = some c' ∧
            c'.closed = false ∧ c'.queue.length < c'.cap := by
          intro k hk hkb
          have hka : k ≠ a := fun he => hat (he ▸ hk)
          obtain ⟨c', hc', hcl', hq'⟩ := hok k (List.mem_cons_of_mem _ hk) hkb
          exact ⟨c', by rw [hlookNe k hka]; exact hc', hcl', hq'⟩
        have hcbT : lookupConn (trySend h a m).conns b = some cb := by
          rw [hlookNe b hba]
          exact hcb
        obtain ⟨ihApp, ihB, ihReg, ihRooms⟩ := ih (trySend h a m) hnt hbt hcbT hokT
        refine ⟨?_, ?_, ?_, ?_⟩
        · intro k hk hkb
          rcases List.mem_cons.mp hk with hk | hk
          · subst hk
            refine ⟨c, hc, ?_⟩
            rw [deliverAll_cons, deliverAll_lookup_not_mem t _ m hat, hstep]
            exact lookupConn_setConn_self _ hc
          · obtain ⟨c', hc', hfin⟩ := ihApp k hk hkb
            refine ⟨c', ?_, by rw [deliverAll_cons]; exact hfin⟩
            rw [← hlookNe k (fun he => hat (he ▸ hk))]
            exact hc'
        · rw [deliverAll_cons]
          exact ihB
        · rw [deliverAll_cons, ihReg, hstep]
        · rw [deliverAll_cons, ihRooms, hstep]

theorem broadcastToRoom_rooms (h : Hub) (r : String) (m : Msg) :
    (broadcastToRoom h r m).rooms = h.rooms := by
  unfold broadcastToRoom
  cases lookupRoom h.rooms r with
  | none => rfl
  | some ms => exact deliverAll_rooms ms h m

theorem broadcastToRoom_currentRoom (h : Hub) (r : String) (m : Msg) (j : ClientId) :
    (lookupConn (broadcastToRoom h r m).conns j).map (fun c => c.currentRoom) =
      (lookupConn h.conns j).map (fun c => c.currentRoom) := by
  unfold broadcastToRoom
  cases lookupRoom h.rooms r with
  | none => rfl
  | some ms => exact deliverAll_currentRoom ms h m j

theorem broadcastToRoom_eq (h : Hub) (r : String) (m : Msg) (ms : List ClientId)
    (hms : lookupRoom h.rooms r = some ms) :
    broadcastToRoom h r m = deliverAll h ms m := by
  unfold broadcastToRoom
  rw [hms]

/-! ### Lemmas about the room map -/

theorem lookupRoom_mem {rooms : List (String × List ClientId)} {r : String}
    {ms : List ClientId} (h : lookupRoom rooms r = some ms) : (r, ms) ∈ rooms := by
  induction rooms with
  | nil => simp [lookupRoom] at h
  | cons p t ih =>
      obtain ⟨r', ms'⟩ := p
      by_cases hr : r' = r
      · subst hr
        simp only [lookupRoom, if_pos rfl] at h
        cases Option.some.inj h
        exact List.mem_cons_self _ _
      · simp only [lookupRoom, if_neg hr] at h
        exact List.mem_cons_of_mem _ (ih h)

theorem lookupRoom_none {rooms : List (String × List ClientId)} {r : String}
    (h : lookupRoom rooms r = none) : ∀ p ∈ rooms, p.1 ≠ r := by
  induction rooms with
  | nil => simp
  | cons p t ih =>
      obtain ⟨r', ms'⟩ := p
      by_cases hr : r' = r
      · simp [lookupRoom, hr] at h
      · simp only [lookupRoom, if_neg hr] at h
        intro q hq
        rcases List.mem_cons.mp hq with rfl | hq
        · exact hr
        · exact ih h q hq

theorem lookupRoom_unique {rooms : List (String × List ClientId)} {r : String}
    {ms : List ClientId} (hks : (rooms.map Prod.fst).Nodup)
    (h : lookupRoom rooms r = some ms) : ∀ p ∈ rooms, p.1 = r → p.2 = ms := by
  induction rooms with
  | nil => simp
  | cons q t ih =>
      obtain ⟨r', ms'⟩ := q
      have hks' : r' ∉ t.map Prod.fst ∧ (t.map Prod.fst).Nodup :=
        List.nodup_cons.mp hks
      by_cases hr : r' = r
      · subst hr
        simp only [lookupRoom, if_pos rfl] at h
        cases Option.some.inj h
        rintro p hp hpr
        rcases List.mem_cons.mp hp with rfl | hp
        · rfl
        · exact absurd (hpr ▸ List.mem_map_of_mem Prod.fst hp) hks'.1
      · simp only [lookupRoom, if_neg hr] at h
        rintro p hp hpr
        rcases List.mem_cons.mp hp with rfl | hp
        · exact absurd hpr hr
        · exact ih hks'.2 h p hp hpr

theorem mem_addMember_self (ms : List ClientId) (k : ClientId) :
    k ∈ addMember ms k := by
  unfold addMember
  by_cases hk : k ∈ ms
  · rw [if_pos hk]
    exact hk
  · simp [hk]

theorem mem_addMember {ms : List ClientId} {k j : ClientId}
    (h : j ∈ addMember ms k) : j ∈ ms ∨ j = k := by
  unfold addMember at h
  by_cases hk : k ∈ ms
  · rw [if_pos hk] at h
    exact Or.inl h
  · rw [if_neg hk] at h
    simpa using List.mem_append.mp h

theorem addMember_nodup {ms : List ClientId} {k : ClientId}
    (h : ms.Nodup) : (addMember ms k).Nodup := by
  unfold addMember
  by_cases hk : k ∈ ms
  · rwa [if_pos hk]
  · rw [if_neg hk]
    simp [List.nodup_append, h, hk]

theorem lookupRoom_addToRoom_self (rooms : List (String × List ClientId))
    (r : String) (k : ClientId) :
    lookupRoom (addToRoom rooms r k) r =
      some (addMember ((lookupRoom rooms r).getD []) k) := by
  induction rooms with
  | nil => simp [addToRoom, lookupRoom, addMember]
  | cons p t ih =>
      obtain ⟨r', ms⟩ := p
      by_cases hr : r' = r
      · subst hr
        simp [addToRoom, lookupRoom]
      · simp [addToRoom, lookupRoom, hr, ih]

theorem mem_entry_addToRoom {rooms : List (String × List ClientId)} {r : String}
    {k : ClientId} {p : String × List ClientId} (hp : p ∈ addToRoom rooms r k) :
    ∀ j ∈ p.2, j = k ∨ ∃ q ∈ rooms, j ∈ q.2 := by
  induction rooms with
  | nil =>
      simp only [addToRoom, List.mem_singleton] at hp
      subst hp
      intro j hj
      simp only [List.mem_singleton] at hj
      exact Or.inl hj
  | cons q0 t ih =>
      obtain ⟨r', ms⟩ := q0
      by_cases hr : r' = r
      · simp only [addToRoom, if_pos hr] at hp
        rcases List.mem_cons.mp hp with rfl | hp
        · intro j hj
          rcases mem_addMember hj with hj | hj
          · exact Or.inr ⟨(r', ms), List.mem_cons_self _ _, hj⟩
          · exact Or.inl hj
        · intro j hj
          exact Or.inr ⟨p, List.mem_cons_of_mem _ hp, hj⟩
      · simp only [addToRoom, if_neg hr] at hp
        rcases List.mem_cons.mp hp with rfl | hp
        · intro j hj
          exact Or.inr ⟨(r', ms), List.mem_cons_self _ _, hj⟩
        · intro j hj
          rcases ih hp j hj with hj' | ⟨q, hq, hjq⟩
          · exact Or.inl hj'
          · exact Or.inr ⟨q, List.mem_cons_of_mem _ hq, hjq⟩

theorem keys_addToRoom (rooms : List (String × List ClientId)) (r : String)
    (k : ClientId) :
    (addToRoom rooms r k).map Prod.fst =
      if r ∈ rooms.map Prod.fst then rooms.map Prod.fst
      else rooms.map Prod.fst ++ [r] := by
  induction rooms with
  | nil => simp [addToRoom]
  | cons p t ih =>
      obtain ⟨r', ms⟩ := p
      by_cases hr : r' = r
      · subst hr
        simp [addToRoom]
      · have hrr' : ¬ (r = r') := fun h => hr h.symm
        simp only [addToRoom, if_neg hr, List.map_cons, ih]
        by_cases hrt : r ∈ t.map Prod.fst
        · simp [hrt, hrr']
        · simp [hrt, hrr']

theorem keys_nodup_addToRoom {rooms : List (String × List ClientId)} {r : String}
    {k : ClientId} (h : (rooms.map Prod.fst).Nodup) :
    ((addToRoom rooms r k).map Prod.fst).Nodup := by
  rw [keys_addToRoom]
  by_cases hr : r ∈ rooms.map Prod.fst
  · rwa [if_pos hr]
  · rw [if_neg hr]
    simp [List.nodup_append, h, hr]

theorem memNodup_addToRoom {rooms : List (String × List ClientId)} {r : String}
    {k : ClientId} (h : ∀ p ∈ rooms, p.2.Nodup) :
    ∀ p ∈ addToRoom rooms r k, p.2.Nodup := by
  induction rooms with
  | nil =>
      intro p hp
      simp only [addToRoom, List.mem_singleton] at hp
      subst hp
      simp
  | cons q0 t ih =>
      obtain ⟨r', ms⟩ := q0
      intro p hp
      by_cases hr : r' = r
      · simp only [addToRoom, if_pos hr] at hp
        rcases List.mem_cons.mp hp with rfl | hp
        · exact addMember_nodup (h (r', ms) (List.mem_cons_self _ _))
        · exact h p (List.mem_cons_of_mem _ hp)
      · simp only [addToRoom, if_neg hr] at hp
        rcases List.mem_cons.mp hp with rfl | hp
        · exact h (r', ms) (List.mem_cons_self _ _)
        · exact ih (fun q hq => h q (List.mem_cons_of_mem _ hq)) p hp

theorem addToRoom_iff {rooms : List (String × List ClientId)} {r : String}
    {k : ClientId} (hks : (rooms.map Prod.fst).Nodup)
    (hno : ∀ p ∈ rooms, k ∉ p.2) :
    ∀ p ∈ addToRoom rooms r k, (k ∈ p.2 ↔ p.1 = r) := by
  induction rooms with
  | nil =>
      intro p hp
      simp only [addToRoom, List.mem_singleton] at hp
      subst hp
      simp
  | cons q0 t ih =>
      obtain ⟨r', ms⟩ := q0
      have hks' : r' ∉ t.map Prod.fst ∧ (t.map Prod.fst).Nodup :=
        List.nodup_cons.mp hks
      intro p hp
      by_cases hr : r' = r
      · subst hr
        simp only [addToRoom, if_pos rfl] at hp
        rcases List.mem_cons.mp hp with rfl | hp
        · simp [mem_addMember_self]
        · constructor
          · intro hk
            exact absurd hk (hno p (List.mem_cons_of_mem _ hp))
          · intro hp1
            exact absurd (hp1 ▸ List.mem_map_of_mem Prod.fst hp) hks'.1
      · simp only [addToRoom, if_neg hr] at hp
        rcases List.mem_cons.mp hp with rfl | hp
        · constructor
          · intro hk
            exact absurd hk (hno (r', ms) (List.mem_cons_self _ _))
          · intro h1
            exact absurd h1 hr
        · exact ih hks'.2 (fun q hq => hno q (List.mem_cons_of_mem _ hq)) p hp

theorem mem_entry_setRoomMembers {rooms : List (String × List ClientId)}
    {r : String} {ms : List ClientId} {p : String × List ClientId}
    (hp : p ∈ setRoomMembers rooms r ms) :
    (p ∈ rooms ∧ p.1 ≠ r) ∨ (p.1 = r ∧ p.2 = ms) := by
  induction rooms with
  | nil => simp [setRoomMembers] at hp
  | cons q t ih =>
      obtain ⟨r', ms'⟩ := q
      by_cases hr : r' = r
      · simp only [setRoomMembers, if_pos hr] at hp
        rcases List.mem_cons.mp hp with rfl | hp
        · exact Or.inr ⟨hr, rfl⟩
        · rcases ih hp with ⟨hq, hne⟩ | hq
          · exact Or.inl ⟨List.mem_cons_of_mem _ hq, hne⟩
          · exact Or.inr hq
      · simp only [setRoomMembers, if_neg hr] at hp
        rcases List.mem_cons.mp hp with rfl | hp
        · exact Or.inl ⟨List.mem_cons_self _ _, hr⟩
        · rcases ih hp with ⟨hq, hne⟩ | hq
          · exact Or.inl ⟨List.mem_cons_of_mem _ hq, hne⟩
          · exact Or.inr hq

theorem keys_setRoomMembers (rooms : List (String × List ClientId)) (r : String)
    (ms : List ClientId) :
    (setRoomMembers rooms r ms).map Prod.fst = rooms.map Prod.fst := by
  induction rooms with
  | nil => rfl
  | cons p t ih =>
      obtain ⟨r', ms'⟩ := p
      by_cases hr : r' = r
      · simpa [setRoomMembers, if_pos hr] using ih
      · simpa [setRoomMembers, if_neg hr] using ih

theorem lookupRoom_setRoomMembers_self {rooms : List (String × List ClientId)}
    {r : String} {ms0 : List ClientId} (ms : List ClientId)
    (h : lookupRoom rooms r = some ms0) :
    lookupRoom (setRoomMembers rooms r ms) r = some ms := by
  induction rooms with
  | nil => simp [lookupRoom] at h
  | cons p t ih =>
      obtain ⟨r', ms'⟩ := p
      by_cases hr : r' = r
      · simp [setRoomMembers, if_pos hr, lookupRoom, hr]
      · simp only [lookupRoom, if_neg hr] at h
        simp only [setRoomMembers, if_neg hr, lookupRoom, if_neg hr]
        exact ih h

theorem mem_entry_removeRoom {rooms : List (String × List ClientId)} {r : String}
    {p : String × List ClientId} (hp : p ∈ removeRoom rooms r) :
    p ∈ rooms ∧ p.1 ≠ r := by
  unfold removeRoom at hp
  have h := List.mem_filter.mp hp
  exact ⟨h.1, by simpa using h.2⟩

theorem mem_entry_removeFromRooms {rooms : List (String × List ClientId)}
    {k : ClientId} {p : String × List ClientId}
    (hp : p ∈ removeFromRooms rooms k) :
    ∃ q ∈ rooms, q.1 = p.1 ∧ ∀ j ∈ p.2, j ∈ q.2 := by
  induction rooms with
  | nil => simp [removeFromRooms] at hp
  | cons q0 t ih =>
      obtain ⟨r, ms⟩ := q0
      simp only [removeFromRooms] at hp
      by_cases hk : k ∈ ms
      · rw [if_pos hk] at hp
        by_cases hrest : removeId ms k = []
        · rw [if_pos hrest] at hp
          obtain ⟨q, hq, hq1, hq2⟩ := ih hp
          exact ⟨q, List.mem_cons_of_mem _ hq, hq1, hq2⟩
        · rw [if_neg hrest] at hp
          rcases List.mem_cons.mp hp with rfl | hp
          · exact ⟨(r, ms), List.mem_cons_self _ _, rfl,
              fun j hj => mem_of_mem_removeId hj⟩
          · obtain ⟨q, hq, hq1, hq2⟩ := ih hp
            exact ⟨q, List.mem_cons_of_mem _ hq, hq1, hq2⟩
      · rw [if_neg hk] at hp
        rcases List.mem_cons.mp hp with rfl | hp
        · exact ⟨(r, ms), List.mem_cons_self _ _, rfl, fun j hj => hj⟩
        · obtain ⟨q, hq, hq1, hq2⟩ := ih hp
          exact ⟨q, List.mem_cons_of_mem _ hq, hq1, hq2⟩

theorem not_mem_removeFromRooms {rooms : List (String × List ClientId)}
    {k : ClientId} (hnd : ∀ p ∈ rooms, p.2.Nodup) :
    ∀ p ∈ removeFromRooms rooms k, k ∉ p.2 := by
  induction rooms with
  | nil => simp [removeFromRooms]
  | cons q0 t ih =>
      obtain ⟨r, ms⟩ := q0
      intro p hp
      have hndT : ∀ q ∈ t, (q : String × List ClientId).2.Nodup :=
        fun q hq => hnd q (List.mem_cons_of_mem _ hq)
      simp only [removeFromRooms] at hp
      by_cases hk : k ∈ ms
      · rw [if_pos hk] at hp
        by_cases hrest : removeId ms k = []
        · rw [if_pos hrest] at hp
          exact ih hndT p hp
        · rw [if_neg hrest] at hp
          rcases List.mem_cons.mp hp with rfl | hp
          · exact not_mem_removeId_self (hnd (r, ms) (List.mem_cons_self _ _))
          · exact ih hndT p hp
      · rw [if_neg hk] at hp
        rcases List.mem_cons.mp hp with rfl | hp
        · exact hk
        · exact ih hndT p hp

theorem memNodup_removeFromRooms {rooms : List (String × List ClientId)}
    {k : ClientId} (hnd : ∀ p ∈ rooms, p.2.Nodup) :
    ∀ p ∈ removeFromRooms rooms k, p.2.Nodup := by
  induction rooms with
  | nil => simp [removeFromRooms]
  | cons q0 t ih =>
      obtain ⟨r, ms⟩ := q0
      intro p hp
      have hndT : ∀ q ∈ t, (q : String × List ClientId).2.Nodup :=
        fun q hq => hnd q (List.mem_cons_of_mem _ hq)
      simp only [removeFromRooms] at hp
      by_cases hk : k ∈ ms
      · rw [if_pos hk] at hp
        by_cases hrest : removeId ms k = []
        · rw [if_pos hrest] at hp
          exact ih hndT p hp
        · rw [if_neg hrest] at hp
          rcases List.mem_cons.mp hp with rfl | hp
          · exact nodup_removeId (hnd (r, ms) (List.mem_cons_self _ _))
          · exact ih hndT p hp
      · rw [if_neg hk] at hp
        rcases List.mem_cons.mp hp with rfl | hp
        · exact hnd (r, ms) (List.mem_cons_self _ _)
        · exact ih hndT p hp

/-! ### Operation-level lemmas -/

theorem joinRoom_eq (h : Hub) (k : ClientId) (r : String) (now : Nat) (c : Conn)
    (hc : lookupConn h.conns k = some c) :
    joinRoom h k r now =
      broadcastToRoom { h with rooms := addToRoom h.rooms r k } r
        (userJoinedMsg r c now) := by
  unfold joinRoom
  rw [hc]

theorem joinRoom_rooms (h : Hub) (k : ClientId) (r : String) (now : Nat) (c : Conn)
    (hc : lookupConn h.conns k = some c) :
    (joinRoom h k r now).rooms = addToRoom h.rooms r k := by
  rw [joinRoom_eq h k r now c hc, broadcastToRoom_rooms]

theorem joinRoom_currentRoom (h : Hub) (k : ClientId) (r : String) (now : Nat)
    (j : ClientId) :
    (lookupConn (joinRoom h k r now).conns j).map (fun c => c.currentRoom) =
      (lookupConn h.conns j).map (fun c => c.currentRoom) := by
  unfold joinRoom
  cases lookupConn h.conns k with
  | none => rfl
  | some c =>
      exact broadcastToRoom_currentRoom { h with rooms := addToRoom h.rooms r k } r _ j

theorem leaveRoom_currentRoom (h : Hub) (k : ClientId) (r : String) (now : Nat)
    (j : ClientId) :
    (lookupConn (leaveRoom h k r now).conns j).map (fun c => c.currentRoom) =
      (lookupConn h.conns j).map (fun c => c.currentRoom) := by
  unfold leaveRoom
  cases hc : lookupConn h.conns k with
  | none => rfl
  | some c =>
      cases hms : lookupRoom h.rooms r with
      | none => rfl
      | some ms =>
          by_cases hk : k ∈ ms
          · simp only [if_pos hk]
            by_cases hrest : removeId ms k = []
            · simp only [if_pos hrest]
              exact broadcastToRoom_currentRoom
                { h with rooms := setRoomMembers h.rooms r (removeId ms k) } r _ j
            · simp only [if_neg hrest]
              exact broadcastToRoom_currentRoom
                { h with rooms := setRoomMembers h.rooms r (removeId ms k) } r _ j
          · simp only [if_neg hk]

theorem leaveRoom_lookup_self (h : Hub) (k : ClientId) (r : String) (now : Nat)
    (hnd : MemNodup h) :
    lookupConn (leaveRoom h k r now).conns k = lookupConn h.conns k := by
  unfold leaveRoom
  cases hc : lookupConn h.conns k with
  | none => exact hc
  | some c =>
      cases hms : lookupRoom h.rooms r with
      | none => exact hc
      | some ms =>
          by_cases hk : k ∈ ms
          · have hmsnd : ms.Nodup := hnd (r, ms) (lookupRoom_mem hms)
            have hkrest : k ∉ removeId ms k := not_mem_removeId_self hmsnd
            have hbr : broadcastToRoom
                { h with rooms := setRoomMembers h.rooms r (removeId ms k) } r
                (userLeftMsg r c now) =
                deliverAll { h with rooms := setRoomMembers h.rooms r (removeId ms k) }
                  (removeId ms k) (userLeftMsg r c now) :=
              broadcastToRoom_eq _ r _ _ (lookupRoom_setRoomMembers_self _ hms)
            simp only [if_pos hk]
            by_cases hrest : removeId ms k = []
            · simp only [if_pos hrest]
              rw [hbr, deliverAll_lookup_not_mem _ _ _ hkrest]
              exact hc
            · simp only [if_neg hrest]
              rw [hbr, deliverAll_lookup_not_mem _ _ _ hkrest]
              exact hc
          · simp only [if_neg hk]
            exact hc

/-- After `LeaveRoom`, a client that sat only in room `r` (or in no room)
sits in no room at all, and the room map stays well formed. -/
theorem leaveRoom_clears (h : Hub) (k : ClientId) (r : String) (now : Nat) (c : Conn)
    (hc : lookupConn h.conns k = some c)
    (hks : KeyNodup h) (hnd : MemNodup h)
    (hsync : ∀ p ∈ h.rooms, k ∈ p.2 → p.1 = r) :
    (∀ p ∈ (leaveRoom h k r now).rooms, k ∉ p.2) ∧
    KeyNodup (leaveRoom h k r now) ∧ MemNodup (leaveRoom h k r now) := by
  unfold leaveRoom
  rw [hc]
  cases hms : lookupRoom h.rooms r with
  | none =>
      refine ⟨fun p hp hkp => ?_, hks, hnd⟩
      exact lookupRoom_none hms p hp (hsync p hp hkp)
  | some ms =>
      by_cases hk : k ∈ ms
      · have hmsnd : ms.Nodup := hnd (r, ms) (lookupRoom_mem hms)
        have hkrest : k ∉ removeId ms k := not_mem_removeId_self hmsnd
        have hsetClear : ∀ p ∈ setRoomMembers h.rooms r (removeId ms k), k ∉ p.2 := by
          intro p hp hkp
          rcases mem_entry_setRoomMembers hp with ⟨hpr, hpne⟩ | ⟨hpr, hpe⟩
          · exact hpne (hsync p hpr hkp)
          · exact hkrest (hpe ▸ hkp)
        have hsetKeys : KeyNodup { h with rooms := setRoomMembers h.rooms r (removeId ms k) } := by
          unfold KeyNodup
          rw [keys_setRoomMembers]
          exact hks
        have hsetNd : ∀ p ∈ setRoomMembers h.rooms r (removeId ms k), p.2.Nodup := by
          intro p hp
          rcases mem_entry_setRoomMembers hp with ⟨hpr, _⟩ | ⟨_, hpe⟩
          · exact hnd p hpr
          · exact hpe ▸ nodup_removeId hmsnd
        have hroomsEq : (broadcastToRoom
            { h with rooms := setRoomMembers h.rooms r (removeId ms k) } r
            (userLeftMsg r c now)).rooms = setRoomMembers h.rooms r (removeId ms k) :=
          broadcastToRoom_rooms _ r _
        simp only [if_pos hk]
        by_cases hrest : removeId ms k = []
        · simp only [if_pos hrest]
          refine ⟨?_, ?_, ?_⟩
          · intro p hp
            rw [hroomsEq] at hp
            exact hsetClear p (mem_entry_removeRoom hp).1
          · unfold KeyNodup removeRoom
            rw [hroomsEq]
            exact List.Nodup.sublist (List.Sublist.map _ (List.filter_sublist _)) hsetKeys
          · intro p hp
            rw [hroomsEq] at hp
            exact hsetNd p (mem_entry_removeRoom hp).1
        · simp only [if_neg hrest]
          refine ⟨?_, ?_, ?_⟩
          · intro p hp
            rw [hroomsEq] at hp
            exact hsetClear p hp
          · unfold KeyNodup
            rw [hroomsEq]
            exact hsetKeys
          · intro p hp
            rw [hroomsEq] at hp
            exact hsetNd p hp
      · simp only [if_neg hk]
        refine ⟨fun p hp hkp => ?_, hks, hnd⟩
        exact hk ((lookupRoom_unique hks hms p hp (hsync p hp hkp)) ▸ hkp)

/-! ### The join path: leave the old room, enter the new one -/

theorem joinRoom_tail (h : Hub) (k : ClientId) (rid : String) (now : Nat)
    (conf : Msg) (c1 : Conn)
    (hc : lookupConn h.conns k = some c1) :
    (∃ c', lookupConn (blockingSend (joinRoom
        (updateConn h k (fun x => { x with currentRoom := rid })) k rid now) k conf).conns k =
          some c' ∧ c'.currentRoom = rid) ∧
    (blockingSend (joinRoom
        (updateConn h k (fun x => { x with currentRoom := rid })) k rid now) k conf).rooms =
      addToRoom h.rooms rid k := by
  have hc2 : lookupConn (updateConn h k (fun x => { x with currentRoom := rid })).conns k =
      some { c1 with currentRoom := rid } :=
    updateConn_lookup_self h k _ c1 hc
  have hrooms2 : (updateConn h k (fun x => { x with currentRoom := rid })).rooms = h.rooms :=
    updateConn_rooms h k _
  have hrooms3 : (joinRoom (updateConn h k (fun x => { x with currentRoom := rid })) k
      rid now).rooms = addToRoom h.rooms rid k := by
    rw [joinRoom_rooms _ k rid now _ hc2, hrooms2]
  have hcur3 : (lookupConn (joinRoom (updateConn h k
      (fun x => { x with currentRoom := rid })) k rid now).conns k).map
        (fun c => c.currentRoom) = some rid := by
    rw [joinRoom_currentRoom, hc2]
    rfl
  obtain ⟨c3, hc3, hc3r⟩ := Option.map_eq_some'.mp hcur3
  constructor
  · refine ⟨{ c3 with queue := c3.queue ++ [conf] }, ?_, hc3r⟩
    unfold blockingSend
    exact updateConn_lookup_self _ k _ c3 hc3
  · unfold blockingSend
    rw [updateConn_rooms, hrooms3]

theorem joinRoom_tail_full (h1 : Hub) (k : ClientId) (rid : String) (now : Nat)
    (conf : Msg) (c1 : Conn) (hrid : rid ≠ "")
    (hc : lookupConn h1.conns k = some c1)
    (hks : KeyNodup h1) (hnd : MemNodup h1)
    (hclear : ∀ p ∈ h1.rooms, k ∉ p.2) :
    ∃ c', lookupConn (blockingSend (joinRoom
        (updateConn h1 k (fun x => { x with currentRoom := rid })) k rid now) k conf).conns k =
          some c' ∧
      c'.currentRoom = rid ∧
      KeyNodup (blockingSend (joinRoom
        (updateConn h1 k (fun x => { x with currentRoom := rid })) k rid now) k conf) ∧
      MemNodup (blockingSend (joinRoom
        (updateConn h1 k (fun x => { x with currentRoom := rid })) k rid now) k conf) ∧
      RoomSync (blockingSend (joinRoom
        (updateConn h1 k (fun x => { x with currentRoom := rid })) k rid now) k conf) k c' ∧
      (∀ p ∈ (blockingSend (joinRoom
        (updateConn h1 k (fun x => { x with currentRoom := rid })) k rid now) k conf).rooms,
        (k ∈ p.2 ↔ p.1 = rid)) := by
  obtain ⟨⟨c', hc', hcr'⟩, hroomsE⟩ := joinRoom_tail h1 k rid now conf c1 hc
  have hiff : ∀ p ∈ (blockingSend (joinRoom
      (updateConn h1 k (fun x => { x with currentRoom := rid })) k rid now) k conf).rooms,
      (k ∈ p.2 ↔ p.1 = rid) := by
    intro p hp
    rw [hroomsE] at hp
    exact addToRoom_iff hks hclear p hp
  refine ⟨c', hc', hcr', ?_, ?_, ?_, hiff⟩
  · unfold KeyNodup
    rw [hroomsE]
    exact keys_nodup_addToRoom hks
  · intro p hp
    rw [hroomsE] at hp
    exact memNodup_addToRoom hnd p hp
  · intro p hp
    rw [hcr']
    constructor
    · intro hk
      exact ⟨hrid, (hiff p hp).mp hk⟩
    · intro hk
      exact (hiff p hp).mpr hk.2

theorem handleJoinRoom_sync (h : Hub) (k : ClientId) (msg : Msg) (now : Nat) (c : Conn)
    (hrid : msg.room_id ≠ "")
    (hc : lookupConn h.conns k = some c)
    (hks : KeyNodup h) (hnd : MemNodup h) (hsync : RoomSync h k c) :
    ∃ c', lookupConn (handleJoinRoom h k msg now).conns k = some c' ∧
      c'.currentRoom = msg.room_id ∧
      KeyNodup (handleJoinRoom h k msg now) ∧ MemNodup (handleJoinRoom h k msg now) ∧
      RoomSync (handleJoinRoom h k msg now) k c' ∧
      (∀ p ∈ (handleJoinRoom h k msg now).rooms, (k ∈ p.2 ↔ p.1 = msg.room_id)) := by
  by_cases hcr : c.currentRoom = ""
  · have hclear : ∀ p ∈ h.rooms, k ∉ p.2 := by
      intro p hp hkp
      exact absurd ((hsync p hp).mp hkp).1 (by simp [hcr])
    simp only [handleJoinRoom, if_neg hrid, hc, if_pos hcr]
    exact joinRoom_tail_full h k msg.room_id now _ c hrid hc hks hnd hclear
  · have hsync' : ∀ p ∈ h.rooms, k ∈ p.2 → p.1 = c.currentRoom :=
      fun p hp hkp => ((hsync p hp).mp hkp).2
    obtain ⟨hclear1, hks1, hnd1⟩ :=
      leaveRoom_clears h k c.currentRoom now c hc hks hnd hsync'
    have hc1 : lookupConn (leaveRoom h k c.currentRoom now).conns k = some c := by
      rw [leaveRoom_lookup_self h k c.currentRoom now hnd]
      exact hc
    simp only [handleJoinRoom, if_neg hrid, hc, if_neg hcr]
    exact joinRoom_tail_full (leaveRoom h k c.currentRoom now) k msg.room_id now _ c
      hrid hc1 hks1 hnd1 hclear1

theorem joinSeq_cons (h : Hub) (k : ClientId) (x : String) (rs : List String)
    (now : Nat) :
    joinSeq h k (x :: rs) now =
      joinSeq (handleJoinRoom h k (joinMsg x) now) k rs now := rfl

theorem joinSeq_append_one (h : Hub) (k : ClientId) (rs : List String) (r : String)
    (now : Nat) :
    joinSeq h k (rs ++ [r]) now =
      handleJoinRoom (joinSeq h k rs now) k (joinMsg r) now := by
  unfold joinSeq
  rw [List.foldl_append]
  rfl

theorem joinSeq_inv (rs : List String) (h : Hub) (k : ClientId) (now : Nat) (c : Conn)
    (hne : ∀ x ∈ rs, x ≠ "") (hc : lookupConn h.conns k = some c)
    (hks : KeyNodup h) (hnd : MemNodup h) (hsync : RoomSync h k c) :
    ∃ c', lookupConn (joinSeq h k rs now).conns k = some c' ∧
      KeyNodup (joinSeq h k rs now) ∧ MemNodup (joinSeq h k rs now) ∧
      RoomSync (joinSeq h k rs now) k c' := by
  induction rs generalizing h c with
  | nil => exact ⟨c, hc, hks, hnd, hsync⟩
  | cons x rs ih =>
      have hx : (joinMsg x).room_id ≠ "" := hne x (List.mem_cons_self _ _)
      obtain ⟨c1, hc1, _, hks1, hnd1, hsync1, _⟩ :=
        handleJoinRoom_sync h k (joinMsg x) now c hx hc hks hnd hsync
      rw [joinSeq_cons]
      exact ih (handleJoinRoom h k (joinMsg x) now) c1
        (fun y hy => hne y (List.mem_cons_of_mem _ hy)) hc1 hks1 hnd1 hsync1

/-! ### Registry-consistency preservation, operation by operation -/

theorem roomMembers_nodup (h : Hub) (r : String) (hnd : MemNodup h) :
    (roomMembers h r).Nodup := by
  unfold roomMembers
  cases hms : lookupRoom h.rooms r with
  | none => simp
  | some ms => exact hnd (r, ms) (lookupRoom_mem hms)

theorem invStep_register (h : Hub) (k : ClientId) (hInv : Inv h) (hnd : MemNodup h) :
    Inv (register h k) ∧ MemNodup (register h k) := by
  constructor
  · intro p hp j hj
    have hmem := hInv p hp j hj
    show j ∈ (if k ∈ h.registry then h.registry else k :: h.registry)
    by_cases hk : k ∈ h.registry
    · rwa [if_pos hk]
    · rw [if_neg hk]
      exact List.mem_cons_of_mem _ hmem
  · exact hnd

theorem invStep_unregister (h : Hub) (k : ClientId) (hInv : Inv h) (hnd : MemNodup h) :
    Inv (unregister h k) ∧ MemNodup (unregister h k) := by
  unfold unregister
  by_cases hk : k ∈ h.registry
  · rw [if_pos hk]
    constructor
    · intro p hp j hj
      have hknot : k ∉ p.2 := not_mem_removeFromRooms (fun q hq => hnd q hq) p hp
      obtain ⟨q, hq, _, hsub⟩ := mem_entry_removeFromRooms hp
      have hjreg : j ∈ h.registry := hInv q hq j (hsub j hj)
      exact mem_removeId_of_ne (fun he => hknot (he ▸ hj)) hjreg
    · intro p hp
      exact memNodup_removeFromRooms (fun q hq => hnd q hq) p hp
  · rw [if_neg hk]
    exact ⟨hInv, hnd⟩

theorem invStep_broadcast (h : Hub) (r : String) (m : Msg)
    (hInv : Inv h) (hnd : MemNodup h)
    (hok : ∀ j ∈ roomMembers h r, Deliverable h j) :
    Inv (broadcastToRoom h r m) ∧ MemNodup (broadcastToRoom h r m) := by
  unfold broadcastToRoom
  cases hms : lookupRoom h.rooms r with
  | none => exact ⟨hInv, hnd⟩
  | some ms =>
      have hmsnd : ms.Nodup := hnd (r, ms) (lookupRoom_mem hms)
      have hok' : ∀ j ∈ ms, ∃ c, lookupConn h.conns j = some c ∧ c.closed = false ∧
          c.queue.length < c.cap := by
        intro j hj
        exact hok j (by unfold roomMembers; rw [hms]; exact hj)
      obtain ⟨_, _, hreg, hrooms⟩ := deliverAll_ok ms h m hmsnd hok'
      constructor
      · intro p hp j hj
        rw [hrooms] at hp
        rw [hreg]
        exact hInv p hp j hj
      · intro p hp
        rw [hrooms] at hp
        exact hnd p hp

theorem invStep_join (h : Hub) (k : ClientId) (r : String) (now : Nat)
    (hInv : Inv h) (hnd : MemNodup h)
    (hreg : k ∈ h.registry)
    (hok : ∀ j ∈ addMember (roomMembers h r) k, Deliverable h j) :
    Inv (joinRoom h k r now) ∧ MemNodup (joinRoom h k r now) := by
  unfold joinRoom
  cases hc : lookupConn h.conns k with
  | none => exact ⟨hInv, hnd⟩
  | some c =>
      have hms' : lookupRoom (addToRoom h.rooms r k) r =
          some (addMember (roomMembers h r) k) := lookupRoom_addToRoom_self h.rooms r k
      have hnd' : (addMember (roomMembers h r) k).Nodup :=
        addMember_nodup (roomMembers_nodup h r hnd)
      have hok' : ∀ j ∈ addMember (roomMembers h r) k,
          ∃ c0, lookupConn h.conns j = some c0 ∧ c0.closed = false ∧
            c0.queue.length < c0.cap :=
        fun j hj => hok j hj
      have hbr : broadcastToRoom { h with rooms := addToRoom h.rooms r k } r
          (userJoinedMsg r c now) =
          deliverAll { h with rooms := addToRoom h.rooms r k }
            (addMember (roomMembers h r) k) (userJoinedMsg r c now) :=
        broadcastToRoom_eq _ r _ _ hms'
      obtain ⟨_, _, hreg2, hrooms2⟩ :=
        deliverAll_ok (addMember (roomMembers h r) k)
          { h with rooms := addToRoom h.rooms r k } (userJoinedMsg r c now) hnd' hok'
      show Inv (broadcastToRoom { h with rooms := addToRoom h.rooms r k } r
          (userJoinedMsg r c now)) ∧
        MemNodup (broadcastToRoom { h with rooms := addToRoom h.rooms r k } r
          (userJoinedMsg r c now))
      rw [hbr]
      constructor
      · intro p hp j hj
        rw [hrooms2] at hp
        rw [hreg2]
        rcases mem_entry_addToRoom hp j hj with rfl | ⟨q, hq, hjq⟩
        · exact hreg
        · exact hInv q hq j hjq
      · intro p hp
        rw [hrooms2] at hp
        exact memNodup_addToRoom (fun q hq => hnd q hq) p hp

theorem invStep_leave (h : Hub) (k : ClientId) (r : String) (now : Nat)
    (hInv : Inv h) (hnd : MemNodup h)
    (hok : ∀ j ∈ removeId (roomMembers h r) k, Deliverable h j) :
    Inv (leaveRoom h k r now) ∧ MemNodup (leaveRoom h k r now) := by
  unfold leaveRoom
  cases hc : lookupConn h.conns k with
  | none => exact ⟨hInv, hnd⟩
  | some c =>
      cases hms : lookupRoom h.rooms r with
      | none => exact ⟨hInv, hnd⟩
      | some ms =>
          by_cases hk : k ∈ ms
          · have hmsnd : ms.Nodup := hnd (r, ms) (lookupRoom_mem hms)
            have hrestnd : (removeId ms k).Nodup := nodup_removeId hmsnd
            have hms' : lookupRoom (setRoomMembers h.rooms r (removeId ms k)) r =
                some (removeId ms k) := lookupRoom_setRoomMembers_self _ hms
            have hok' : ∀ j ∈ removeId ms k,
                ∃ c0, lookupConn h.conns j = some c0 ∧ c0.closed = false ∧
                  c0.queue.length < c0.cap := by
              intro j hj
              exact hok j (by unfold roomMembers; rw [hms]; exact hj)
            have hbr : broadcastToRoom
                { h with rooms := setRoomMembers h.rooms r (removeId ms k) } r
                (userLeftMsg r c now) =
                deliverAll { h with rooms := setRoomMembers h.rooms r (removeId ms k) }
                  (removeId ms k) (userLeftMsg r c now) :=
              broadcastToRoom_eq _ r _ _ hms'
            have hinvSet : ∀ p ∈ setRoomMembers h.rooms r (removeId ms k),
                ∀ j ∈ p.2, j ∈ h.registry := by
              intro p hp j hj
              rcases mem_entry_setRoomMembers hp with ⟨hpr, _⟩ | ⟨_, hpe⟩
              · exact hInv p hpr j hj
              · exact hInv (r, ms) (lookupRoom_mem hms) j
                  (mem_of_mem_removeId (hpe ▸ hj))
            have hndSet : ∀ p ∈ setRoomMembers h.rooms r (removeId ms k), p.2.Nodup := by
              intro p hp
              rcases mem_entry_setRoomMembers hp with ⟨hpr, _⟩ | ⟨_, hpe⟩
              · exact hnd p hpr
              · exact hpe ▸ hrestnd
            obtain ⟨_, _, hreg2, hrooms2⟩ :=
              deliverAll_ok (removeId ms k)
                { h with rooms := setRoomMembers h.rooms r (removeId ms k) }
                (userLeftMsg r c now) hrestnd hok'
            have hrooms2' : (deliverAll
                { h with rooms := setRoomMembers h.rooms r (removeId ms k) }
                (removeId ms k) (userLeftMsg r c now)).rooms =
                setRoomMembers h.rooms r (removeId ms k) := hrooms2
            have hreg2' : (deliverAll
                { h with rooms := setRoomMembers h.rooms r (removeId ms k) }
                (removeId ms k) (userLeftMsg r c now)).registry = h.registry := hreg2
            simp only [if_pos hk]
            by_cases hrest : removeId ms k = []
            · simp only [if_pos hrest]
              constructor
              · intro p hp j hj
                rw [hbr] at hp
                rw [hbr, hreg2']
                rw [hrooms2'] at hp
                exact hinvSet p (mem_entry_removeRoom hp).1 j hj
              · intro p hp
                rw [hbr, hrooms2'] at hp
                exact hndSet p (mem_entry_removeRoom hp).1
            · simp only [if_neg hrest]
              constructor
              · intro p hp j hj
                rw [hbr] at hp
                rw [hbr, hreg2']
                rw [hrooms2'] at hp
                exact hinvSet p hp j hj
              · intro p hp
                rw [hbr, hrooms2'] at hp
                exact hndSet p hp
          · simp only [if_neg hk]
            exact ⟨hInv, hnd⟩

/-! ### Unregister lemmas -/

theorem unregister_not_mem (h : Hub) (k : ClientId) (hk : k ∉ h.registry) :
    unregister h k = h := by
  unfold unregister
  rw [if_neg hk]

theorem unregister_registry_of_mem (h : Hub) (k : ClientId) (hk : k ∈ h.registry) :
    (unregister h k).registry = removeId h.registry k := by
  unfold unregister
  rw [if_pos hk]

/-! ### Claim theorems -/

/-- C7: `Unregister` is idempotent — running the `unregister` case of
`Hub.Run` a second time on the same connection is a no-op, leaving exactly
the registry, room and connection state the first run produced.  (The Go
registry is a map, hence the duplicate-free hypothesis.) -/
theorem unregister_idem (h : Hub) (k : ClientId) (hrnd : h.registry.Nodup) :
    unregister (unregister h k) k = unregister h k := by
  by_cases hk : k ∈ h.registry
  · have hk' : k ∉ (unregister h k).registry := by
      rw [unregister_registry_of_mem h k hk]
      exact not_mem_removeId_self hrnd
    exact unregister_not_mem _ _ hk'
  · rw [unregister_not_mem h k hk]
    exact unregister_not_mem h k hk

/-- C7 witness: idempotence of `unregister` at a concrete two-client hub. -/
theorem unregister_idem_witness :
    hubTwo.registry.Nodup ∧ unregister (unregister hubTwo 2) 2 = unregister hubTwo 2 :=
  ⟨by decide, unregister_idem hubTwo 2 (by decide)⟩

/-- C3 (amended): the `unregister` case of `Hub.Run` removes a registered
connection from the registry and from every room that contains it — but it
queues no `user_left` announcement: every connection's outbound queue,
the remaining room members' included, is exactly what it was before. -/
theorem unregister_spec (h : Hub) (k : ClientId) (r : String) (ms : List ClientId)
    (hreg : k ∈ h.registry) (hrnd : h.registry.Nodup)
    (_hms : lookupRoom h.rooms r = some ms) (_hmem : k ∈ ms)
    (hnd : MemNodup h) :
    k ∉ (unregister h k).registry ∧
    (∀ ms', lookupRoom (unregister h k).rooms r = some ms' → k ∉ ms') ∧
    (∀ j c0, lookupConn h.conns j = some c0 →
       ∃ c1, lookupConn (unregister h k).conns j = some c1 ∧ c1.queue = c0.queue) := by
  unfold unregister
  rw [if_pos hreg]
  refine ⟨not_mem_removeId_self hrnd, ?_, ?_⟩
  · intro ms' hms'
    exact not_mem_removeFromRooms (fun q hq => hnd q hq) (r, ms') (lookupRoom_mem hms')
  · intro j c0 hj
    cases hck : lookupConn h.conns k with
    | none => exact ⟨c0, hj, rfl⟩
    | some ck =>
        by_cases hjk : j = k
        · subst hjk
          rw [hck] at hj
          cases Option.some.inj hj
          exact ⟨{ c0 with closed := true }, lookupConn_setConn_self _ hck, rfl⟩
        · refine ⟨c0, ?_, rfl⟩
          rw [lookupConn_setConn_ne _ hjk]
          exact hj

/-- C3 witness: unregistering client 2 from a two-client room removes it
from registry and room while every queue stays untouched. -/
theorem unregister_spec_witness :
    (2 ∈ hubTwo.registry ∧ lookupRoom hubTwo.rooms "r" = some [1, 2] ∧ 2 ∈ [1, 2]) ∧
    (2 ∉ (unregister hubTwo 2).registry ∧
     (∀ ms', lookupRoom (unregister hubTwo 2).rooms "r" = some ms' → 2 ∉ ms') ∧
     (∀ j c0, lookupConn hubTwo.conns j = some c0 →
        ∃ c1, lookupConn (unregister hubTwo 2).conns j = some c1 ∧ c1.queue = c0.queue)) :=
  ⟨⟨by decide, rfl, by decide⟩,
   unregister_spec hubTwo 2 "r" [1, 2] (by decide) (by decide) rfl (by decide)
     (by unfold MemNodup; decide)⟩

/-- C3 counterexample: abrupt disconnect of client 2 (the `unregister` path
of `Hub.Run`) removes it from the registry and the room, but the surviving
member's queue stays empty — no `user_left` frame is ever produced, against
the claim that a member-left announcement is delivered to the room. -/
theorem unregister_no_user_left_counterexample :
    unregister hubTwo 2 =
      { conns := [(1, aliceConn), (2, { bobConn with closed := true })],
        registry := [1], rooms := [("r", [1])] } := by decide

/-- C2 (amended): registry consistency — every room member is registered —
is preserved by `Register`, `Unregister`, `LeaveRoom`, by `JoinRoom` of a
registered connection, and by any broadcast in which every delivery
succeeds.  (A failed delivery removes the recipient from the registry but
not from the room, breaking the invariant: see the counterexample.) -/
theorem applyOp_preserves_inv (h : Hub) (op : HubOp)
    (hInv : Inv h) (hnd : MemNodup h) (hok : opOk h op) :
    Inv (applyOp h op) ∧ MemNodup (applyOp h op) := by
  cases op with
  | registerOp k => exact invStep_register h k hInv hnd
  | unregisterOp k => exact invStep_unregister h k hInv hnd
  | joinOp k r now => exact invStep_join h k r now hInv hnd hok.1 hok.2
  | leaveOp k r now => exact invStep_leave h k r now hInv hnd hok
  | broadcastOp r m => exact invStep_broadcast h r m hInv hnd hok

/-- C2 witness: a fully successful broadcast over a two-member room keeps
the registry-consistency invariant. -/
theorem applyOp_preserves_inv_witness :
    Inv hubTwo ∧
    (Inv (applyOp hubTwo (HubOp.broadcastOp "r" chatMsgEx)) ∧
     MemNodup (applyOp hubTwo (HubOp.broadcastOp "r" chatMsgEx))) :=
  ⟨by unfold Inv; decide,
   applyOp_preserves_inv hubTwo (HubOp.broadcastOp "r" chatMsgEx)
     (by unfold Inv; decide) (by unfold MemNodup; decide)
     (by
        intro j hj
        have hj2 : j ∈ ([1, 2] : List ClientId) := hj
        simp only [List.mem_cons, List.mem_singleton] at hj2
        rcases hj2 with rfl | rfl | h
        · exact ⟨aliceConn, rfl, rfl, by decide⟩
        · exact ⟨bobConn, rfl, rfl, by decide⟩
        · cases h)⟩

/-- C2 counterexample: the invariant the claim asserts after every broadcast
fails on the failed-delivery path.  Before the broadcast every room member
is registered; afterwards client 2 (whose queue was saturated) is gone from
the registry yet still sits in room `r`. -/
theorem inv_broken_by_failed_delivery :
    Inv hubStuck ∧ ¬ Inv (broadcastToRoom hubStuck "r" chatMsgEx) := by
  constructor
  · unfold Inv
    decide
  · unfold Inv
    decide

/-- C5 (amended): when delivery to exactly one member `b` of a room fails
because its outbound queue is saturated, the loop closes `b`'s channel and
removes `b` from the registry — but not from the room — and every other
member of the room still receives the message. -/
theorem broadcast_saturated_spec (h : Hub) (r : String) (m : Msg)
    (ms : List ClientId) (b : ClientId) (cb : Conn)
    (hms : lookupRoom h.rooms r = some ms) (hnd : ms.Nodup) (hb : b ∈ ms)
    (hcb : lookupConn h.conns b = some cb) (_hcbopen : cb.closed = false)
    (hfull : cb.cap ≤ cb.queue.length)
    (hok : ∀ j ∈ ms, j ≠ b → Deliverable h j) :
    (∀ j ∈ ms, j ≠ b → ∃ cj, lookupConn h.conns j = some cj ∧
       lookupConn (broadcastToRoom h r m).conns j =
         some { cj with queue := cj.queue ++ [m] }) ∧
    (broadcastToRoom h r m).registry = removeId h.registry b ∧
    lookupRoom (broadcastToRoom h r m).rooms r = some ms ∧
    lookupConn (broadcastToRoom h r m).conns b = some { cb with closed := true } := by
  have hbad : ¬ (cb.closed = false ∧ cb.queue.length < cb.cap) :=
    fun hcl => absurd hcl.2 (not_lt.mpr hfull)
  rw [broadcastToRoom_eq h r m ms hms]
  obtain ⟨hApp, hB, hReg, hRooms⟩ :=
    deliverAll_one_bad ms h m b cb hnd hb hcb hbad hok
  refine ⟨hApp, hReg, ?_, hB⟩
  rw [hRooms]
  exact hms

/-- C5 witness: in a three-member room where client 2 is saturated, the
broadcast evicts 2 from the registry, leaves the member list `[1, 2, 3]`
intact, and still delivers to member 3. -/
theorem broadcast_saturated_spec_witness :
    (lookupRoom hubThree.rooms "r" = some [1, 2, 3] ∧ 2 ∈ ([1, 2, 3] : List ClientId)) ∧
    ((3 : ClientId) ≠ 2 → ∃ cj, lookupConn hubThree.conns 3 = some cj ∧
       lookupConn (broadcastToRoom hubThree "r" chatMsgEx).conns 3 =
         some { cj with queue := cj.queue ++ [chatMsgEx] }) ∧
    (broadcastToRoom hubThree "r" chatMsgEx).registry = removeId hubThree.registry 2 ∧
    lookupRoom (broadcastToRoom hubThree "r" chatMsgEx).rooms "r" = some [1, 2, 3] ∧
    lookupConn (broadcastToRoom hubThree "r" chatMsgEx).conns 2 =
      some { stuckConn with closed := true } := by
  have hmain := broadcast_saturated_spec hubThree "r" chatMsgEx [1, 2, 3] 2 stuckConn
    rfl (by decide) (by decide) rfl rfl (by decide)
    (by
      intro j hj hjb
      have hj2 : j ∈ ([1, 2, 3] : List ClientId) := hj
      simp only [List.mem_cons, List.mem_singleton] at hj2
      rcases hj2 with rfl | rfl | rfl | h
      · exact ⟨aliceConn, rfl, rfl, by decide⟩
      · exact absurd rfl hjb
      · exact ⟨{ userID := "u3", username := "eve", currentRoom := "r" }, rfl, rfl, by decide⟩
      · cases h)
  exact ⟨⟨rfl, by decide⟩, fun hne => hmain.1 3 (by decide) hne, hmain.2.1, hmain.2.2.1,
    hmain.2.2.2⟩

/-- C5 counterexample: the claim says the failing member is removed from
the registry *and from the room*.  Concretely, after the broadcast client 2
is out of the registry but the room's member set still contains it. -/
theorem broadcast_room_not_pruned_counterexample :
    (broadcastToRoom hubThree "r" chatMsgEx).registry = [1, 3] ∧
    lookupRoom (broadcastToRoom hubThree "r" chatMsgEx).rooms "r" = some [1, 2, 3] := by
  constructor
  · decide
  · decide

/-- C1 (amended): a `content_change` from a room member is rebroadcast to
every member of that room with `user_id`/`username` set to the sender's
identity and `data` equal to the inbound payload — including the sender
itself, which therefore receives its own echo (see the counterexample). -/
theorem handleContentChange_spec (h : Hub) (k : ClientId) (msg : Msg) (now : Nat)
    (c : Conn) (ms : List ClientId)
    (hc : lookupConn h.conns k = some c) (hr : c.currentRoom ≠ "")
    (hms : lookupRoom h.rooms c.currentRoom = some ms) (hnd : ms.Nodup)
    (hok : ∀ j ∈ ms, Deliverable h j) :
    ∀ j ∈ ms, ∃ cj, lookupConn h.conns j = some cj ∧
      lookupConn (handleContentChange h k msg now).conns j =
        some { cj with queue := cj.queue ++ [contentChangeMsg c msg now] } := by
  simp only [handleContentChange, hc, if_neg hr]
  rw [broadcastToRoom_eq h c.currentRoom _ ms hms]
  obtain ⟨hApp, _, _, _⟩ :=
    deliverAll_ok ms h (contentChangeMsg c msg now) hnd (fun j hj => hok j hj)
  exact hApp

/-- C1 witness: in the two-member room, member 2 receives the relayed frame
with sender 1's identity and the inbound payload. -/
theorem handleContentChange_spec_witness :
    (2 ∈ ([1, 2] : List ClientId)) ∧
    ∃ cj, lookupConn hubTwo.conns 2 = some cj ∧
      lookupConn (handleContentChange hubTwo 1 inboundChange 5).conns 2 =
        some { cj with queue := cj.queue ++ [contentChangeMsg aliceConn inboundChange 5] } :=
  ⟨by decide,
   handleContentChange_spec hubTwo 1 inboundChange 5 aliceConn [1, 2] rfl (by decide)
     rfl (by decide)
     (by
        intro j hj
        have hj2 : j ∈ ([1, 2] : List ClientId) := hj
        simp only [List.mem_cons, List.mem_singleton] at hj2
        rcases hj2 with rfl | rfl | h0
        · exact ⟨aliceConn, rfl, rfl, by decide⟩
        · exact ⟨bobConn, rfl, rfl, by decide⟩
        · cases h0)
     2 (by decide)⟩

/-- C1 counterexample: the claim says the sender receives no echo, but
after client 1's `content_change` in the two-member room, client 1's own
queue holds the relayed frame. -/
theorem contentChange_echo_counterexample :
    lookupConn (handleContentChange hubTwo 1 inboundChange 5).conns 1 =
      some { aliceConn with queue := [contentChangeMsg aliceConn inboundChange 5] } := by
  decide

/-- C4: a connection is a member of exactly the most recently joined room.
After any sequence of `join_room` messages (each handled by
`handleJoinRoom`, which leaves the previous room before `Hub.JoinRoom` adds
the new one) ending in room `r`, the client's `currentRoom` is `r` and the
client appears in a room's member set exactly when that room is `r`. -/
theorem joinSeq_last_room (rs : List String) (r : String) (h : Hub) (k : ClientId)
    (now : Nat) (c : Conn)
    (hne : ∀ x ∈ rs, x ≠ "") (hr : r ≠ "")
    (hc : lookupConn h.conns k = some c)
    (hks : KeyNodup h) (hnd : MemNodup h) (hsync : RoomSync h k c) :
    ∃ c', lookupConn (joinSeq h k (rs ++ [r]) now).conns k = some c' ∧
      c'.currentRoom = r ∧
      ∀ p ∈ (joinSeq h k (rs ++ [r]) now).rooms, (k ∈ p.2 ↔ p.1 = r) := by
  obtain ⟨c1, hc1, hks1, hnd1, hsync1⟩ := joinSeq_inv rs h k now c hne hc hks hnd hsync
  rw [joinSeq_append_one]
  obtain ⟨c', h1, h2, _, _, _, h6⟩ :=
    handleJoinRoom_sync (joinSeq h k rs now) k (joinMsg r) now c1 hr hc1 hks1 hnd1 hsync1
  exact ⟨c', h1, h2, h6⟩

/-- C4 witness: a lone client joining rooms `a` then `b` ends up a member of
exactly room `b`. -/
theorem joinSeq_last_room_witness :
    ((∀ x ∈ (["a"] : List String), x ≠ "") ∧ ("b" : String) ≠ "") ∧
    ∃ c', lookupConn (joinSeq hubLone 3 (["a"] ++ ["b"]) 7).conns 3 = some c' ∧
      c'.currentRoom = "b" ∧
      ∀ p ∈ (joinSeq hubLone 3 (["a"] ++ ["b"]) 7).rooms, (3 ∈ p.2 ↔ p.1 = "b") :=
  ⟨⟨by decide, by decide⟩,
   joinSeq_last_room ["a"] "b" hubLone 3 7 { userID := "u3", username := "eve" }
     (by decide) (by decide) rfl (by unfold KeyNodup; decide)
     (by unfold MemNodup; decide)
     (by intro p hp; cases hp)⟩

/-- C6: `Hub.JoinRoom` adds the client to the room and then broadcasts a
`user_joined` announcement carrying the joiner's identity to the room's
current members — a set that includes the newly joined connection itself. -/
theorem joinRoom_user_joined (h : Hub) (k : ClientId) (r : String) (now : Nat)
    (c : Conn) (ms' : List ClientId)
    (hc : lookupConn h.conns k = some c)
    (hms' : ms' = addMember (roomMembers h r) k)
    (hnd : ms'.Nodup)
    (hok : ∀ j ∈ ms', Deliverable h j) :
    k ∈ ms' ∧
    ∀ j ∈ ms', ∃ cj, lookupConn h.conns j = some cj ∧
      lookupConn (joinRoom h k r now).conns j =
        some { cj with queue := cj.queue ++ [userJoinedMsg r c now] } := by
  subst hms'
  refine ⟨mem_addMember_self _ _, ?_⟩
  rw [joinRoom_eq h k r now c hc,
    broadcastToRoom_eq _ r _ _ (lookupRoom_addToRoom_self h.rooms r k)]
  obtain ⟨hApp, _, _, _⟩ :=
    deliverAll_ok (addMember (roomMembers h r) k)
      { h with rooms := addToRoom h.rooms r k } (userJoinedMsg r c now) hnd
      (fun j hj => hok j hj)
  exact hApp

/-- C6 witness: client 2 joins the room already containing client 1, and the
joiner itself receives the `user_joined` announcement for client 2. -/
theorem joinRoom_user_joined_witness :
    (2 ∈ addMember (roomMembers hubJoin "r") 2) ∧
    ∃ cj, lookupConn hubJoin.conns 2 = some cj ∧
      lookupConn (joinRoom hubJoin 2 "r" 7).conns 2 =
        some { cj with queue := cj.queue ++
          [userJoinedMsg "r" { userID := "u2", username := "bob" } 7] } := by
  have hmain := joinRoom_user_joined hubJoin 2 "r" 7
    { userID := "u2", username := "bob" } (addMember (roomMembers hubJoin "r") 2)
    rfl rfl (by decide)
    (by
      intro j hj
      have hj2 : j ∈ ([1, 2] : List ClientId) := hj
      simp only [List.mem_cons, List.mem_singleton] at hj2
      rcases hj2 with rfl | rfl | h0
      · exact ⟨aliceConn, rfl, rfl, by decide⟩
      · exact ⟨{ userID := "u2", username := "bob" }, rfl, rfl, by decide⟩
      · cases h0)
  exact ⟨hmain.1, hmain.2 2 hmain.1⟩

/-- C8: the keepalive constants of `client.go` — the ping period is 54
seconds, the pong timeout 60 seconds (so the probe interval is strictly
inside the liveness window) and the maximum inbound frame size is 512
bytes. -/
theorem keepalive_constants :
    pingPeriod = 54 * second ∧ pongWait = 60 * second ∧ pingPeriod < pongWait ∧
      maxMessageSize = 512 := by
  refine ⟨?_, rfl, ?_, rfl⟩
  · norm_num [pingPeriod, pongWait, second]
  · norm_num [pingPeriod, pongWait, second]

/-- C9: a `content_change`, `cursor_move`, `selection_change` or
`chat_message` frame from a connection whose `currentRoom` is empty is
silently dropped — `handleMessage` returns the hub state unchanged, so
nothing is broadcast, no reply is queued, and no membership changes. -/
theorem no_room_messages_dropped (h : Hub) (k : ClientId) (msg : Msg) (now : Nat)
    (c : Conn)
    (hc : lookupConn h.conns k = some c) (hr : c.currentRoom = "")
    (ht : msg.type = "content_change" ∨ msg.type = "cursor_move" ∨
          msg.type = "selection_change" ∨ msg.type = "chat_message") :
    handleMessage h k msg now = h := by
  rcases ht with ht | ht | ht | ht <;>
    simp [handleMessage, ht, handleContentChange, handleCursorMove,
      handleSelectionChange, handleChatMessage, hc, hr]

/-- C9 witness: a roomless client's `content_change` leaves the hub state
untouched. -/
theorem no_room_messages_dropped_witness :
    handleMessage hubLone 3 inboundChange 9 = hubLone :=
  no_room_messages_dropped hubLone 3 inboundChange 9
    { userID := "u3", username := "eve" } rfl rfl (Or.inl rfl)

/-- C10: every `leave_room` message queues a `room_left` confirmation to the
sender — even when the connection is in no room, in which case the rooms,
the registry, and every other connection are left exactly as they were. -/
theorem handleLeaveRoom_spec (h : Hub) (k : ClientId) (now : Nat) (c : Conn)
    (hc : lookupConn h.conns k = some c) (hnd : MemNodup h) :
    (∃ c', lookupConn (handleLeaveRoom h k now).conns k = some c' ∧
       c'.queue = c.queue ++ [roomLeftMsg c now]) ∧
    (c.currentRoom = "" →
       (handleLeaveRoom h k now).rooms = h.rooms ∧
       (handleLeaveRoom h k now).registry = h.registry ∧
       ∀ j, j ≠ k → lookupConn (handleLeaveRoom h k now).conns j = lookupConn h.conns j) := by
  by_cases hcr : c.currentRoom = ""
  · simp only [handleLeaveRoom, hc, if_pos hcr]
    constructor
    · refine ⟨{ c with queue := c.queue ++ [roomLeftMsg c now] }, ?_, rfl⟩
      exact updateConn_lookup_self h k _ c hc
    · intro _
      exact ⟨updateConn_rooms h k _, updateConn_registry h k _,
        fun j hj => updateConn_lookup_ne h _ hj⟩
  · simp only [handleLeaveRoom, hc, if_neg hcr]
    constructor
    · have hc1 : lookupConn (leaveRoom h k c.currentRoom now).conns k = some c := by
        rw [leaveRoom_lookup_self h k c.currentRoom now hnd]
        exact hc
      have hc2 : lookupConn (updateConn (leaveRoom h k c.currentRoom now) k
          (fun c1 => { c1 with currentRoom := "" })).conns k =
          some { c with currentRoom := "" } :=
        updateConn_lookup_self _ k _ c hc1
      refine ⟨{ { c with currentRoom := "" } with
        queue := c.queue ++ [roomLeftMsg c now] }, ?_, rfl⟩
      exact updateConn_lookup_self _ k _ _ hc2
    · intro hcr'
      exact absurd hcr' hcr

/-- C10 witness: a roomless client's `leave_room` still queues the
`room_left` confirmation while rooms, registry and the other connections
stay untouched. -/
theorem handleLeaveRoom_spec_witness :
    (∃ c', lookupConn (handleLeaveRoom hubLone 3 9).conns 3 = some c' ∧
       c'.queue = ({ userID := "u3", username := "eve" } : Conn).queue ++
         [roomLeftMsg { userID := "u3", username := "eve" } 9]) ∧
    (({ userID := "u3", username := "eve" } : Conn).currentRoom = "" →
       (handleLeaveRoom hubLone 3 9).rooms = hubLone.rooms ∧
       (handleLeaveRoom hubLone 3 9).registry = hubLone.registry ∧
       ∀ j, j ≠ 3 → lookupConn (handleLeaveRoom hubLone 3 9).conns j =
         lookupConn hubLone.conns j) :=
  handleLeaveRoom_spec hubLone 3 9 { userID := "u3", username := "eve" } rfl
    (by unfold MemNodup; decide)

end OpenSame
